import Mathlib

/-!
Shallow embedding of `incremental_selection` from
`opencog/learning/feature-selection/feature_selection.h`.

Features are drawn from a linearly ordered type: `std::set` stores its
elements in ascending order, and `std::set<FeatureSet>` stores feature
sets in lexicographic order of their ascending element sequences, which
fixes the enumeration order of every loop in the source.  Scores are
drawn from an arbitrary linearly ordered additive commutative group,
standing in for the C++ `double`s: the algorithm only ever compares and
subtracts scores, so that structure is all that is used.

The utilities the header pulls in from `opencog/util` (`powerset`,
`has_empty_intersection`, `lru_cache`) are not part of the given source
tree; they are modelled from the spec contracts, as noted on each
definition.
-/

namespace FeatureSelection

variable {α : Type} [LinearOrder α] {R : Type} [LinearOrderedAddCommGroup R]

/-- Ascending list of the elements of a multiset, by insertion sort.
Two permutations of one another have equal insertion sorts under a
linear order, so the lift is well defined.  This is the iteration order
of a `std::set`. -/
def msort (m : Multiset α) : List α :=
  Quot.lift (List.insertionSort (fun a b => a ≤ b))
    (fun l l' h =>
      List.eq_of_perm_of_sorted
        ((List.perm_insertionSort _ l).trans
          ((h : l.Perm l').trans (List.perm_insertionSort _ l').symm))
        (List.sorted_insertionSort _ l) (List.sorted_insertionSort _ l'))
    m

/-- Ascending list of the elements of a finset: the iteration order of
the `std::set` holding those features. -/
def sortedList (s : Finset α) : List α :=
  msort s.val

/-- Modelled from the spec: the Combination Generator contract
(`powerset(s, n, exact = true)` from `opencog/util/numeric.h`, which is
not among the given sources) produces every subset of cardinality
exactly `n`, with no duplicates.  When `l` is sorted ascending this
function lists those subsets, each as a sorted list, in the
lexicographic order in which a `std::set<FeatureSet>` iterates them. -/
def combinations : ℕ → List α → List (List α)
  | 0, _ => [[]]
  | _ + 1, [] => []
  | n + 1, x :: xs =>
      ((combinations n xs).map (fun fs => x :: fs)) ++ combinations (n + 1) xs

/-- Relevance pass of one iteration: fold over the candidate subsets in
enumeration order and, for each candidate scoring strictly above the
threshold, insert all of its features
(`if(scorer_cache(fs) > threshold) rel.insert(fs.begin(), fs.end())`).
The accumulator starts from the incoming `rel`: the source's
`rel.empty()` is `std::set::empty`, a side-effect-free emptiness query,
so the relevant-set is not cleared between iterations. -/
def relPass (scorer : Finset α → R) (threshold : R)
    (fss : List (List α)) (rel : Finset α) : Finset α :=
  fss.foldl (fun r fs => if threshold < scorer fs.toFinset then r ∪ fs.toFinset else r) rel

/-- Inner loop of the redundancy pass over the features of one candidate
`fs` (iterated in ascending order): return the first `f` with
`scorer_cache(fs) - scorer_cache(fs_without_f) < threshold`, breaking as
soon as one is found.  The second component records the score-cache
queries the loop issues, two per inspected feature, the whole candidate
before the candidate without `f` (the C++ leaves the operand order of
the subtraction unspecified; this choice is immaterial to the results
proved below). -/
def redScan (scorer : Finset α → R) (threshold : R) (fsF : Finset α) :
    List α → Option α × List (Finset α)
  | [] => (none, [])
  | f :: rest =>
      if scorer fsF - scorer (fsF.erase f) < threshold then
        (some f, [fsF, fsF.erase f])
      else
        let r := redScan scorer threshold fsF rest
        (r.1, fsF :: fsF.erase f :: r.2)

/-- One step of the redundancy fold: skip the candidate if it meets the
current redundant set (`has_empty_intersection(fs, red)`, modelled from
the spec: true exactly when the two sets share no element), otherwise
insert the first redundant feature `redScan` finds, and append the
queries issued. -/
def redStep (scorer : Finset α → R) (threshold : R)
    (acc : Finset α × List (Finset α)) (fs : List α) : Finset α × List (Finset α) :=
  if ∀ f ∈ fs, f ∉ acc.1 then
    ((redScan scorer threshold fs.toFinset fs).1.elim acc.1 (fun f => insert f acc.1),
      acc.2 ++ (redScan scorer threshold fs.toFinset fs).2)
  else acc

/-- Redundancy pass of one iteration: fold `redStep` over the
size-`(i+1)` subsets of `rel` in enumeration order, starting from an
empty redundant set.  Returns the redundant set together with the list
of score-cache queries issued. -/
def redPass (scorer : Finset α → R) (threshold : R)
    (nrfss : List (List α)) : Finset α × List (Finset α) :=
  nrfss.foldl (redStep scorer threshold) (∅, [])

/-- State carried across cardinality iterations: the relevant-set `rel`,
the result-set `res`, and, as a ghost field, the sequence `qs` of
score-cache queries issued so far. -/
structure SelState (α : Type) where
  rel : Finset α
  res : Finset α
  qs : List (Finset α)

/-- One cardinality iteration `i`, the body of
`for(unsigned int i = 1; i <= max_size; i++)`.  `tf` is
`std::set_difference(features, rel)`; the relevance pass folds over the
size-`i` subsets of `tf`; the redundancy pass, when enabled, folds over
the size-`(i+1)` subsets of the (uncleared) `rel`, and `rel \ red` is
inserted into `res`; otherwise all of `rel` is inserted into `res`. -/
def iterStep (features : Finset α) (scorer : Finset α → R) (threshold : R)
    (remove_red : Bool) (st : SelState α) (i : ℕ) : SelState α :=
  let tf := features \ st.rel
  let fss := combinations i (sortedList tf)
  let rel := relPass scorer threshold fss st.rel
  let relQs := fss.map List.toFinset
  if remove_red then
    let nrfss := combinations (i + 1) (sortedList rel)
    let rp := redPass scorer threshold nrfss
    { rel := rel, res := st.res ∪ (rel \ rp.1), qs := st.qs ++ relQs ++ rp.2 }
  else
    { rel := rel, res := st.res ∪ rel, qs := st.qs ++ relQs }

/-- The first `k` iterations of the loop, starting from empty `rel`,
`res` and query trace. -/
def selRunUpTo (features : Finset α) (scorer : Finset α → R) (threshold : R)
    (remove_red : Bool) (k : ℕ) : SelState α :=
  ((List.range k).map (fun j => j + 1)).foldl
    (iterStep features scorer threshold remove_red) ⟨∅, ∅, []⟩

/-- The embedding of `incremental_selection`: run the loop for
`i = 1 .. max_size` and return `res`. -/
def incremental_selection (features : Finset α) (scorer : Finset α → R)
    (threshold : R) (max_size : ℕ) (remove_red : Bool) : Finset α :=
  (selRunUpTo features scorer threshold remove_red max_size).res

/-- All score-cache queries one call issues, in order. -/
def selectionQueries (features : Finset α) (scorer : Finset α → R)
    (threshold : R) (max_size : ℕ) (remove_red : Bool) : List (Finset α) :=
  (selRunUpTo features scorer threshold remove_red max_size).qs

/-- The candidate subsets enumerated for relevance testing at iteration
`i`: the size-`i` subsets of `tf = features \ rel`, where `rel` is the
state left by the first `i - 1` iterations. -/
def candidatesAt (features : Finset α) (scorer : Finset α → R) (threshold : R)
    (remove_red : Bool) (i : ℕ) : List (List α) :=
  combinations i
    (sortedList (features \ (selRunUpTo features scorer threshold remove_red (i - 1)).rel))

/-- Modelled from the spec: the Score Cache contract
(`opencog/util/lru_cache.h`, which is not among the given sources) —
memoizing per key, bounded capacity, least-recently-used eviction when
the capacity is exceeded.  The cache state is its list of keys, most
recently used first; the cached values are the scorer's values for
those keys and play no role in control flow, so only the keys are
tracked.  The result lists, in order, the keys on which the underlying
scorer is invoked, i.e. the cache misses. -/
def lruReplay (capacity : ℕ) : List (Finset α) → List (Finset α) → List (Finset α)
  | _, [] => []
  | cache, k :: ks =>
      if k ∈ cache then lruReplay capacity (k :: cache.erase k) ks
      else k :: lruReplay capacity ((k :: cache).take capacity) ks

/-- The underlying scorer invocations of one `incremental_selection`
call: replay the LRU cache, sized `|features| ^ max_size` as in the
source (`std::pow((double)features.size(), (int)max_size)`), over the
call's query sequence. -/
def scorerInvocations (features : Finset α) (scorer : Finset α → R)
    (threshold : R) (max_size : ℕ) (remove_red : Bool) : List (Finset α) :=
  lruReplay (features.card ^ max_size) []
    (selectionQueries features scorer threshold max_size remove_red)

/-! Basic lemmas about the embedding. -/

theorem mem_msort {m : Multiset α} {a : α} : a ∈ msort m ↔ a ∈ m := by
  induction m using Quot.inductionOn with
  | _ l => exact (List.perm_insertionSort (fun a b => a ≤ b) l).mem_iff

theorem mem_sortedList {s : Finset α} {a : α} : a ∈ sortedList s ↔ a ∈ s := by
  rw [sortedList, mem_msort]; exact Iff.rfl

theorem mem_of_mem_combinations :
    ∀ (n : ℕ) (l fs : List α), fs ∈ combinations n l → ∀ a ∈ fs, a ∈ l := by
  intro n l
  induction l generalizing n with
  | nil =>
    intro fs hfs a ha
    cases n with
    | zero => simp [combinations] at hfs; subst hfs; simp at ha
    | succ n => simp [combinations] at hfs
  | cons x xs ih =>
    intro fs hfs a ha
    cases n with
    | zero => simp [combinations] at hfs; subst hfs; simp at ha
    | succ n =>
      simp only [combinations, List.mem_append, List.mem_map] at hfs
      rcases hfs with ⟨fs', hfs', rfl⟩ | hfs
      · rcases List.mem_cons.1 ha with rfl | ha'
        · exact List.mem_cons_self _ _
        · exact List.mem_cons_of_mem _ (ih n fs' hfs' a ha')
      · exact List.mem_cons_of_mem _ (ih (n + 1) fs hfs a ha)

theorem combinations_one (l : List α) : combinations 1 l = l.map (fun x => [x]) := by
  induction l with
  | nil => rfl
  | cons x xs ih => simp [combinations, ih]

theorem mem_relPass {scorer : Finset α → R} {t : R} :
    ∀ (fss : List (List α)) (r : Finset α) (a : α),
      a ∈ relPass scorer t fss r ↔
        a ∈ r ∨ ∃ fs ∈ fss, t < scorer fs.toFinset ∧ a ∈ fs := by
  intro fss
  induction fss with
  | nil => intro r a; simp [relPass]
  | cons fs fss ih =>
    intro r a
    have hstep : relPass scorer t (fs :: fss) r =
        relPass scorer t fss (if t < scorer fs.toFinset then r ∪ fs.toFinset else r) := rfl
    rw [hstep, ih]
    by_cases h : t < scorer fs.toFinset
    · simp only [if_pos h, Finset.mem_union, List.mem_toFinset, List.mem_cons]
      constructor
      · rintro ((ha | ha) | ⟨fs', h1, h2, h3⟩)
        · exact Or.inl ha
        · exact Or.inr ⟨fs, Or.inl rfl, h, ha⟩
        · exact Or.inr ⟨fs', Or.inr h1, h2, h3⟩
      · rintro (ha | ⟨fs', (rfl | h1), h2, h3⟩)
        · exact Or.inl (Or.inl ha)
        · exact Or.inl (Or.inr h3)
        · exact Or.inr ⟨fs', h1, h2, h3⟩
    · simp only [if_neg h, List.mem_cons]
      constructor
      · rintro (ha | ⟨fs', h1, h2, h3⟩)
        · exact Or.inl ha
        · exact Or.inr ⟨fs', Or.inr h1, h2, h3⟩
      · rintro (ha | ⟨fs', (rfl | h1), h2, h3⟩)
        · exact Or.inl ha
        · exact absurd h2 h
        · exact Or.inr ⟨fs', h1, h2, h3⟩

theorem redScan_some {scorer : Finset α → R} {t : R} {fsF : Finset α} :
    ∀ (l : List α) (f : α), (redScan scorer t fsF l).1 = some f →
      f ∈ l ∧ scorer fsF - scorer (fsF.erase f) < t := by
  intro l
  induction l with
  | nil => intro f h; simp [redScan] at h
  | cons g rest ih =>
    intro f h
    by_cases hg : scorer fsF - scorer (fsF.erase g) < t
    · simp only [redScan, if_pos hg, Option.some.injEq] at h
      subst h
      exact ⟨List.mem_cons_self _ _, hg⟩
    · simp only [redScan, if_neg hg] at h
      obtain ⟨hf, hlt⟩ := ih f h
      exact ⟨List.mem_cons_of_mem _ hf, hlt⟩

theorem mem_redPass_foldl {scorer : Finset α → R} {t : R} :
    ∀ (nrfss : List (List α)) (acc : Finset α × List (Finset α)) (f : α),
      f ∈ (nrfss.foldl (redStep scorer t) acc).1 →
      f ∈ acc.1 ∨
        ∃ fs ∈ nrfss, f ∈ fs ∧ scorer fs.toFinset - scorer (fs.toFinset.erase f) < t := by
  intro nrfss
  induction nrfss with
  | nil => intro acc f h; exact Or.inl h
  | cons fs nrfss ih =>
    intro acc f h
    rcases ih (redStep scorer t acc fs) f h with h' | ⟨fs', hmem, hf, hlt⟩
    · by_cases hd : ∀ g ∈ fs, g ∉ acc.1
      · rw [redStep, if_pos hd] at h'
        cases hr : (redScan scorer t fs.toFinset fs).1 with
        | none => rw [hr] at h'; exact Or.inl h'
        | some g =>
          rw [hr] at h'
          rcases Finset.mem_insert.1 h' with rfl | h''
          · obtain ⟨hgfs, hglt⟩ := redScan_some fs f hr
            exact Or.inr ⟨fs, List.mem_cons_self _ _, hgfs, hglt⟩
          · exact Or.inl h''
      -- the candidate was pruned: the accumulator is unchanged
      · rw [redStep, if_neg hd] at h'
        exact Or.inl h'
    · exact Or.inr ⟨fs', List.mem_cons_of_mem _ hmem, hf, hlt⟩

theorem mem_redPass {scorer : Finset α → R} {t : R} (nrfss : List (List α)) (f : α) :
    f ∈ (redPass scorer t nrfss).1 →
    ∃ fs ∈ nrfss, f ∈ fs ∧ scorer fs.toFinset - scorer (fs.toFinset.erase f) < t := by
  intro h
  rcases mem_redPass_foldl nrfss (∅, []) f h with h' | h'
  · simp at h'
  · exact h'

theorem iterStep_rel (F : Finset α) (sc : Finset α → R) (t : R) (rr : Bool)
    (st : SelState α) (i : ℕ) :
    (iterStep F sc t rr st i).rel =
      relPass sc t (combinations i (sortedList (F \ st.rel))) st.rel := by
  cases rr <;> rfl

theorem iterStep_res_false (F : Finset α) (sc : Finset α → R) (t : R)
    (st : SelState α) (i : ℕ) :
    (iterStep F sc t false st i).res = st.res ∪ (iterStep F sc t false st i).rel := rfl

theorem iterStep_res_true (F : Finset α) (sc : Finset α → R) (t : R)
    (st : SelState α) (i : ℕ) :
    (iterStep F sc t true st i).res =
      st.res ∪ ((iterStep F sc t true st i).rel \
        (redPass sc t (combinations (i + 1) (sortedList (iterStep F sc t true st i).rel))).1) :=
  rfl

theorem res_subset_iterStep (F : Finset α) (sc : Finset α → R) (t : R) (rr : Bool)
    (st : SelState α) (i : ℕ) : st.res ⊆ (iterStep F sc t rr st i).res := by
  cases rr
  · rw [iterStep_res_false]; exact Finset.subset_union_left
  · rw [iterStep_res_true]; exact Finset.subset_union_left

theorem selRunUpTo_zero (F : Finset α) (sc : Finset α → R) (t : R) (rr : Bool) :
    selRunUpTo F sc t rr 0 = ⟨∅, ∅, []⟩ := rfl

theorem selRunUpTo_succ (F : Finset α) (sc : Finset α → R) (t : R) (rr : Bool) (k : ℕ) :
    selRunUpTo F sc t rr (k + 1) = iterStep F sc t rr (selRunUpTo F sc t rr k) (k + 1) := by
  simp [selRunUpTo, List.range_succ]

theorem selRunUpTo_res_mono (F : Finset α) (sc : Finset α → R) (t : R) (rr : Bool)
    {k k' : ℕ} (h : k ≤ k') :
    (selRunUpTo F sc t rr k).res ⊆ (selRunUpTo F sc t rr k').res := by
  induction h with
  | refl => exact subset_rfl
  | step h ih =>
    rename_i m hm
    rw [selRunUpTo_succ]
    exact ih.trans (res_subset_iterStep F sc t rr _ _)

theorem selRunUpTo_subsets (F : Finset α) (sc : Finset α → R) (t : R) (rr : Bool) (k : ℕ) :
    (selRunUpTo F sc t rr k).rel ⊆ F ∧ (selRunUpTo F sc t rr k).res ⊆ F := by
  induction k with
  | zero => exact ⟨Finset.empty_subset F, Finset.empty_subset F⟩
  | succ k ih =>
    obtain ⟨h1, h2⟩ := ih
    rw [selRunUpTo_succ]
    have hrel : (iterStep F sc t rr (selRunUpTo F sc t rr k) (k + 1)).rel ⊆ F := by
      rw [iterStep_rel]
      intro a ha
      rcases (mem_relPass _ _ _).1 ha with ha' | ⟨fs, hfs, _, hafs⟩
      · exact h1 ha'
      · have := mem_of_mem_combinations _ _ _ hfs a hafs
        exact (Finset.mem_sdiff.1 (mem_sortedList.1 this)).1
    refine ⟨hrel, ?_⟩
    cases rr
    · rw [iterStep_res_false]
      exact Finset.union_subset h2 hrel
    · rw [iterStep_res_true]
      exact Finset.union_subset h2 ((Finset.sdiff_subset).trans hrel)

theorem selRunUpTo_rel_iff (F : Finset α) (sc : Finset α → R) (t : R) (rr : Bool) :
    ∀ (k : ℕ) (f : α),
      f ∈ (selRunUpTo F sc t rr k).rel ↔
        ∃ j, 1 ≤ j ∧ j ≤ k ∧
          ∃ fs ∈ candidatesAt F sc t rr j, t < sc fs.toFinset ∧ f ∈ fs := by
  intro k
  induction k with
  | zero =>
    intro f
    simp only [selRunUpTo_zero, Finset.not_mem_empty, false_iff]
    rintro ⟨j, h1, h2, -⟩
    omega
  | succ k ih =>
    intro f
    rw [selRunUpTo_succ, iterStep_rel, mem_relPass]
    have hcand : candidatesAt F sc t rr (k + 1) =
        combinations (k + 1) (sortedList (F \ (selRunUpTo F sc t rr k).rel)) := by
      simp [candidatesAt]
    constructor
    · rintro (hf | ⟨fs, hfs, hsc, hffs⟩)
      · obtain ⟨j, h1, h2, hrest⟩ := (ih f).1 hf
        exact ⟨j, h1, Nat.le_succ_of_le h2, hrest⟩
      · exact ⟨k + 1, Nat.succ_le_succ (Nat.zero_le k), le_refl _, fs,
          by rw [hcand]; exact hfs, hsc, hffs⟩
    · rintro ⟨j, h1, h2, fs, hfs, hsc, hffs⟩
      rcases Nat.lt_or_ge j (k + 1) with hj | hj
      · exact Or.inl ((ih f).2 ⟨j, h1, Nat.lt_succ_iff.1 hj, fs, hfs, hsc, hffs⟩)
      · have hjk : j = k + 1 := le_antisymm h2 hj
        subst hjk
        rw [hcand] at hfs
        exact Or.inr ⟨fs, hfs, hsc, hffs⟩

theorem selRunUpTo_true_false (F : Finset α) (sc : Finset α → R) (t : R) (k : ℕ) :
    (selRunUpTo F sc t true k).rel = (selRunUpTo F sc t false k).rel ∧
      (selRunUpTo F sc t true k).res ⊆ (selRunUpTo F sc t false k).res := by
  induction k with
  | zero => exact ⟨rfl, subset_rfl⟩
  | succ k ih =>
    obtain ⟨h1, h2⟩ := ih
    rw [selRunUpTo_succ, selRunUpTo_succ]
    have hrel : (iterStep F sc t true (selRunUpTo F sc t true k) (k + 1)).rel =
        (iterStep F sc t false (selRunUpTo F sc t false k) (k + 1)).rel := by
      rw [iterStep_rel, iterStep_rel, h1]
    refine ⟨hrel, ?_⟩
    rw [iterStep_res_true, iterStep_res_false, hrel]
    exact Finset.union_subset_union h2 Finset.sdiff_subset

theorem incremental_selection_one_false (F : Finset α) (sc : Finset α → R) (t : R) :
    incremental_selection F sc t 1 false = F.filter (fun f => t < sc {f}) := by
  ext a
  rw [incremental_selection]
  have h1 : selRunUpTo F sc t false 1 = iterStep F sc t false ⟨∅, ∅, []⟩ 1 := by
    rw [show (1 : ℕ) = 0 + 1 from rfl, selRunUpTo_succ, selRunUpTo_zero]
  rw [h1, iterStep_res_false, iterStep_rel]
  show a ∈ (∅ : Finset α) ∪ relPass sc t (combinations 1 (sortedList (F \ ∅))) ∅ ↔ _
  rw [Finset.empty_union, mem_relPass]
  simp only [Finset.not_mem_empty, false_or, combinations_one, List.mem_map]
  constructor
  · rintro ⟨fs, ⟨x, hx, rfl⟩, hsc, hafs⟩
    rcases List.mem_singleton.1 hafs with rfl
    rw [Finset.mem_filter]
    have haF : a ∈ F := by
      have := mem_sortedList.1 hx
      simpa using this
    refine ⟨haF, ?_⟩
    simpa using hsc
  · intro hmem
    rw [Finset.mem_filter] at hmem
    refine ⟨[a], ⟨a, ?_, rfl⟩, ?_, List.mem_singleton_self a⟩
    · rw [mem_sortedList]; simpa using hmem.1
    · simpa using hmem.2

theorem sortedList_empty : sortedList (∅ : Finset α) = [] := rfl

theorem iterStep_empty (sc : Finset α → R) (t : R) (rr : Bool) (j : ℕ) :
    iterStep (∅ : Finset α) sc t rr ⟨∅, ∅, []⟩ (j + 1) = ⟨∅, ∅, []⟩ := by
  have hsd : (∅ : Finset α) \ (∅ : Finset α) = ∅ := Finset.sdiff_empty
  cases rr <;>
    simp [iterStep, hsd, sortedList_empty, combinations, relPass, redPass]

theorem selRunUpTo_empty (sc : Finset α → R) (t : R) (rr : Bool) (k : ℕ) :
    selRunUpTo (∅ : Finset α) sc t rr k = ⟨∅, ∅, []⟩ := by
  induction k with
  | zero => rfl
  | succ k ih => rw [selRunUpTo_succ, ih, iterStep_empty]

/-! Lemmas about the spec-modelled LRU score cache. -/

theorem lruReplay_nil (cap : ℕ) (cache : List (Finset α)) :
    lruReplay cap cache [] = [] := rfl

theorem lruReplay_cons (cap : ℕ) (cache : List (Finset α)) (q : Finset α)
    (qs : List (Finset α)) :
    lruReplay cap cache (q :: qs) =
      if q ∈ cache then lruReplay cap (q :: cache.erase q) qs
      else q :: lruReplay cap ((q :: cache).take cap) qs := rfl

theorem lruReplay_at_most_once (cap : ℕ) (S : Finset (Finset α)) (hS : S.card ≤ cap) :
    ∀ (qs cache : List (Finset α)),
      cache.Nodup → (∀ c ∈ cache, c ∈ S) → (∀ q ∈ qs, q ∈ S) →
      ∀ k, (lruReplay cap cache qs).count k + (if k ∈ cache then 1 else 0) ≤ 1 := by
  intro qs
  induction qs with
  | nil =>
    intro cache _ _ _ k
    rw [lruReplay_nil]
    simp only [List.count_nil, Nat.zero_add]
    split <;> omega
  | cons q qs ih =>
    intro cache h1 h2 h3 k
    have hqS : q ∈ S := h3 q (List.mem_cons_self q qs)
    have h3' : ∀ x ∈ qs, x ∈ S := fun x hx => h3 x (List.mem_cons_of_mem q hx)
    rw [lruReplay_cons]
    by_cases hq : q ∈ cache
    · rw [if_pos hq]
      have hnd : (q :: cache.erase q).Nodup := by
        rw [List.nodup_cons]
        refine ⟨fun hmem => ?_, h1.erase q⟩
        exact absurd rfl ((h1.mem_erase_iff.1 hmem).1)
      have hsub : ∀ c ∈ q :: cache.erase q, c ∈ S := by
        intro c hc
        rcases List.mem_cons.1 hc with rfl | hc'
        · exact hqS
        · exact h2 c (List.mem_of_mem_erase hc')
      have hives := ih (q :: cache.erase q) hnd hsub h3' k
      have hmemiff : (k ∈ q :: cache.erase q) ↔ (k ∈ cache) := by
        rw [List.mem_cons, h1.mem_erase_iff]
        constructor
        · rintro (rfl | ⟨-, hk⟩)
          · exact hq
          · exact hk
        · intro hk
          by_cases hkq : k = q
          · exact Or.inl hkq
          · exact Or.inr ⟨hkq, hk⟩
      by_cases hk : k ∈ cache
      · rw [if_pos hk]
        rw [if_pos (hmemiff.2 hk)] at hives
        exact hives
      · rw [if_neg hk]
        rw [if_neg (fun hc => hk (hmemiff.1 hc))] at hives
        omega
    · rw [if_neg hq]
      have hlen : (q :: cache).length ≤ cap := by
        have hnodupF : cache.toFinset.card = cache.length :=
          List.toFinset_card_of_nodup h1
        have hqF : q ∉ cache.toFinset := fun hc => hq (List.mem_toFinset.1 hc)
        have hins : insert q cache.toFinset ⊆ S := by
          refine Finset.insert_subset hqS ?_
          intro c hc
          exact h2 c (List.mem_toFinset.1 hc)
        have hcard : cache.toFinset.card + 1 ≤ S.card := by
          have := Finset.card_le_card hins
          rwa [Finset.card_insert_of_not_mem hqF] at this
        simp only [List.length_cons]
        omega
      rw [List.take_of_length_le hlen]
      have hnd : (q :: cache).Nodup := List.nodup_cons.2 ⟨hq, h1⟩
      have hsub : ∀ c ∈ q :: cache, c ∈ S := by
        intro c hc
        rcases List.mem_cons.1 hc with rfl | hc'
        · exact hqS
        · exact h2 c hc'
      have hives := ih (q :: cache) hnd hsub h3' k
      by_cases hkq : k = q
      · subst hkq
        rw [List.count_cons_self]
        rw [if_pos (List.mem_cons_self k cache)] at hives
        rw [if_neg hq]
        omega
      · rw [List.count_cons_of_ne hkq]
        by_cases hk : k ∈ cache
        · rw [if_pos hk]
          rw [if_pos (List.mem_cons_of_mem q hk)] at hives
          exact hives
        · rw [if_neg hk]
          rw [if_neg (fun hc => (List.mem_cons.1 hc).elim hkq hk)] at hives
          omega

theorem lruReplay_once_of_capacity (cap : ℕ) (qs : List (Finset α))
    (h : qs.toFinset.card ≤ cap) (k : Finset α) :
    (lruReplay cap [] qs).count k ≤ 1 := by
  have := lruReplay_at_most_once cap qs.toFinset h qs [] List.nodup_nil
    (by intro c hc; simp at hc) (fun q hq => List.mem_toFinset.2 hq) k
  simpa using this

/-! The claims. -/

/-- Claim C1, refuted by the code: the source invokes `rel.empty()`, the
`std::set` const emptiness query, where a clear was intended, so the
relevant-set is never cleared.  In this run feature `0` is confirmed
relevant at iteration 1, iteration 2 enumerates no size-2 candidate at
all, and yet after iteration 2 `rel` still holds `0` — contradicting the
claim that after step 4 of iteration `i` the relevant-set holds only
features occurring in a size-`i` candidate of that iteration scoring
above the threshold. -/
theorem rel_not_cleared_between_iterations :
    candidatesAt ({0, 1} : Finset ℕ) (fun s => if s = {0} then (1 : ℤ) else 0) 0 false 2
        = [] ∧
      (selRunUpTo ({0, 1} : Finset ℕ) (fun s => if s = {0} then (1 : ℤ) else 0) 0 false 2).rel
        = {0} := by
  decide

/-- Claim C2: with `max_size = 1` and `remove_red = false`,
`incremental_selection` returns exactly the features of the pool whose
singleton score strictly exceeds the threshold. -/
theorem singleton_pass_filters_by_threshold (F : Finset α) (sc : Finset α → R) (t : R) :
    incremental_selection F sc t 1 false = F.filter (fun f => t < sc {f}) :=
  incremental_selection_one_false F sc t

/-- Claim C3: the relevance and redundancy tests are strict.  A feature
whose singleton score equals the threshold exactly is excluded from the
`max_size = 1` result; a feature covered only by candidates scoring
exactly the threshold is not made relevant; and a feature all of whose
redundancy score differences equal the threshold exactly is not marked
redundant. -/
theorem threshold_boundary_is_excluded (sc : Finset α → R) (t : R) :
    (∀ (F : Finset α) (f : α), sc {f} = t → f ∉ incremental_selection F sc t 1 false) ∧
      (∀ (fss : List (List α)) (r : Finset α) (f : α), f ∉ r →
        (∀ fs ∈ fss, f ∈ fs → sc fs.toFinset = t) → f ∉ relPass sc t fss r) ∧
      (∀ (nrfss : List (List α)) (f : α),
        (∀ fs ∈ nrfss, f ∈ fs → sc fs.toFinset - sc (fs.toFinset.erase f) = t) →
        f ∉ (redPass sc t nrfss).1) := by
  refine ⟨?_, ?_, ?_⟩
  · intro F f hf hmem
    rw [incremental_selection_one_false, Finset.mem_filter, hf] at hmem
    exact lt_irrefl t hmem.2
  · intro fss r f hfr hall hmem
    rcases (mem_relPass fss r f).1 hmem with h | ⟨fs, h1, h2, h3⟩
    · exact hfr h
    · rw [hall fs h1 h3] at h2
      exact lt_irrefl t h2
  · intro nrfss f hall hmem
    obtain ⟨fs, h1, h2, h3⟩ := mem_redPass nrfss f hmem
    rw [hall fs h1 h2] at h3
    exact lt_irrefl t h3

/-- Witness for the strict-boundary theorem: with every score 0 and
threshold 0, feature 5 is excluded from the result, from the relevance
pass and from the redundant set. -/
theorem threshold_boundary_is_excluded_witness :
    (5 ∉ incremental_selection ({5} : Finset ℕ) (fun _ => (0 : ℤ)) 0 1 false) ∧
      (5 ∉ relPass (fun _ => (0 : ℤ)) 0 [[5]] (∅ : Finset ℕ)) ∧
      (5 ∉ (redPass (fun _ => (0 : ℤ)) 0 [[5, 6]]).1) :=
  ⟨(threshold_boundary_is_excluded (fun _ => (0 : ℤ)) 0).1 {5} 5 rfl,
   (threshold_boundary_is_excluded (fun _ => (0 : ℤ)) 0).2.1 [[5]] ∅ 5 (by decide)
     (by decide),
   (threshold_boundary_is_excluded (fun _ => (0 : ℤ)) 0).2.2 [[5, 6]] 5 (by decide)⟩

/-- Claim C4: for identical features, scorer, threshold and `max_size`,
the `remove_red = true` result is a subset of the `remove_red = false`
result. -/
theorem remove_red_result_subset (F : Finset α) (sc : Finset α → R) (t : R) (m : ℕ) :
    incremental_selection F sc t m true ⊆ incremental_selection F sc t m false :=
  (selRunUpTo_true_false F sc t m).2

/-- Claim C5: with `remove_red = false` and all other inputs fixed, the
result grows monotonically in `max_size`. -/
theorem result_monotone_in_max_size (F : Finset α) (sc : Finset α → R) (t : R)
    {m m' : ℕ} (h : m ≤ m') :
    incremental_selection F sc t m false ⊆ incremental_selection F sc t m' false :=
  selRunUpTo_res_mono F sc t false h

/-- Witness for monotonicity in `max_size` at `m = 1`, `m' = 2`. -/
theorem result_monotone_in_max_size_witness :
    (1 ≤ 2) ∧
      incremental_selection ({0} : Finset ℕ) (fun _ => (1 : ℤ)) 0 1 false ⊆
        incremental_selection ({0} : Finset ℕ) (fun _ => (1 : ℤ)) 0 2 false :=
  ⟨by decide, result_monotone_in_max_size {0} (fun _ => (1 : ℤ)) 0 (by decide)⟩

/-- Claim C6: at iteration `i` every enumerated candidate draws its
features from the pool minus the relevant-set carried into the
iteration, and that relevant-set is exactly the set of features
confirmed relevant at some earlier iteration `j ≤ i - 1` (a feature
found relevant earlier is never re-tested). -/
theorem candidates_avoid_earlier_relevant (F : Finset α) (sc : Finset α → R) (t : R)
    (rr : Bool) (i : ℕ) (_hi : 1 ≤ i) :
    (∀ fs ∈ candidatesAt F sc t rr i, ∀ f ∈ fs,
        f ∈ F ∧ f ∉ (selRunUpTo F sc t rr (i - 1)).rel) ∧
      (∀ f, f ∈ (selRunUpTo F sc t rr (i - 1)).rel ↔
        ∃ j, 1 ≤ j ∧ j ≤ i - 1 ∧
          ∃ fs ∈ candidatesAt F sc t rr j, t < sc fs.toFinset ∧ f ∈ fs) := by
  constructor
  · intro fs hfs f hf
    have hmem := mem_of_mem_combinations _ _ _ hfs f hf
    exact Finset.mem_sdiff.1 (mem_sortedList.1 hmem)
  · intro f
    exact selRunUpTo_rel_iff F sc t rr (i - 1) f

/-- Witness: at iteration 2 of this run the only candidate is `[1, 2]`,
whose features are in the pool and not in the iteration-1 relevant
set. -/
theorem candidates_avoid_earlier_relevant_witness :
    (1 ≤ 2) ∧
      (∀ fs ∈ candidatesAt ({0, 1, 2} : Finset ℕ)
          (fun s => if s = {0} then (1 : ℤ) else 0) 0 false 2, ∀ f ∈ fs,
        f ∈ ({0, 1, 2} : Finset ℕ) ∧
          f ∉ (selRunUpTo ({0, 1, 2} : Finset ℕ)
            (fun s => if s = {0} then (1 : ℤ) else 0) 0 false (2 - 1)).rel) :=
  ⟨by decide,
   (candidates_avoid_earlier_relevant ({0, 1, 2} : Finset ℕ)
      (fun s => if s = {0} then (1 : ℤ) else 0) 0 false 2 (by decide)).1⟩

/-- Claim C7: on an empty feature pool the result is empty, no score
query is issued, and the underlying scorer is never invoked — for every
scorer, threshold, `max_size` and `remove_red`. -/
theorem empty_features_empty_result (sc : Finset α → R) (t : R) (m : ℕ) (rr : Bool) :
    incremental_selection (∅ : Finset α) sc t m rr = ∅ ∧
      selectionQueries (∅ : Finset α) sc t m rr = [] ∧
      scorerInvocations (∅ : Finset α) sc t m rr = [] := by
  have h := selRunUpTo_empty sc t rr m
  refine ⟨?_, ?_, ?_⟩
  · show (selRunUpTo (∅ : Finset α) sc t rr m).res = ∅
    rw [h]
  · show (selRunUpTo (∅ : Finset α) sc t rr m).qs = []
    rw [h]
  · show lruReplay ((∅ : Finset α).card ^ m) []
      ((selRunUpTo (∅ : Finset α) sc t rr m).qs) = []
    rw [h]
    rfl

/-- Claim C8: throughout one call the accumulated result is a subset of
the input features, and it only grows across iterations, so whatever is
in `res` after `k ≤ max_size` iterations is in the returned set. -/
theorem res_subset_and_monotone (F : Finset α) (sc : Finset α → R) (t : R) (rr : Bool)
    (m : ℕ) {k : ℕ} (h : k ≤ m) :
    (selRunUpTo F sc t rr k).res ⊆ F ∧
      (selRunUpTo F sc t rr k).res ⊆ incremental_selection F sc t m rr :=
  ⟨(selRunUpTo_subsets F sc t rr k).2, selRunUpTo_res_mono F sc t rr h⟩

/-- Witness for the result-set invariants after iteration 1 of a
2-iteration run. -/
theorem res_subset_and_monotone_witness :
    (1 ≤ 2) ∧
      ((selRunUpTo ({0} : Finset ℕ) (fun _ => (1 : ℤ)) 0 false 1).res ⊆ {0} ∧
        (selRunUpTo ({0} : Finset ℕ) (fun _ => (1 : ℤ)) 0 false 1).res ⊆
          incremental_selection ({0} : Finset ℕ) (fun _ => (1 : ℤ)) 0 2 false) :=
  ⟨by decide, res_subset_and_monotone {0} (fun _ => (1 : ℤ)) 0 false 2 (by decide)⟩

/-- Claim C9 counterexample: with pool `{0, 1}`, `max_size = 1`,
`remove_red = true` and cache capacity `2 ^ 1 = 2`, the call queries the
three distinct subsets `{0}`, `{1}`, `{0, 1}`, the LRU cache evicts
`{0}`, and the underlying scorer is invoked on the subset `{0}` twice in
one call — the claim's "at most once" fails. -/
theorem scorer_reinvoked_after_eviction :
    (scorerInvocations ({0, 1} : Finset ℕ)
        (fun s => if s.card = 2 then (3 : ℤ) else 1) 0 1 true).count {0} = 2 := by
  decide

/-- Claim C9 amended: within one call the underlying scorer is invoked
at most once per subset, provided the number of distinct subsets queried
does not exceed the cache capacity `|features| ^ max_size`; beyond that
the LRU cache evicts and may re-invoke the scorer on a subset it has
already scored. -/
theorem scorer_invoked_at_most_once (F : Finset α) (sc : Finset α → R) (t : R)
    (m : ℕ) (rr : Bool)
    (h : (selectionQueries F sc t m rr).toFinset.card ≤ F.card ^ m) (fs : Finset α) :
    (scorerInvocations F sc t m rr).count fs ≤ 1 :=
  lruReplay_once_of_capacity (F.card ^ m) (selectionQueries F sc t m rr) h fs

/-- Witness: a `remove_red = false` call on two features queries only
the two singletons, within capacity, and `{0}` is scored once. -/
theorem scorer_invoked_at_most_once_witness :
    ((selectionQueries ({0, 1} : Finset ℕ) (fun _ => (1 : ℤ)) 0 1 false).toFinset.card
        ≤ ({0, 1} : Finset ℕ).card ^ 1) ∧
      (scorerInvocations ({0, 1} : Finset ℕ) (fun _ => (1 : ℤ)) 0 1 false).count {0} ≤ 1 :=
  ⟨by decide,
   scorer_invoked_at_most_once {0, 1} (fun _ => (1 : ℤ)) 0 1 false (by decide) {0}⟩

/-- Claim C10: the selector is deterministic — two invocations with
pointwise-equal scorers and equal features, threshold, `max_size` and
`remove_red` return equal result sets. -/
theorem selection_deterministic (F : Finset α) (sc sc' : Finset α → R) (t : R)
    (m : ℕ) (rr : Bool) (h : ∀ fs, sc fs = sc' fs) :
    incremental_selection F sc t m rr = incremental_selection F sc' t m rr := by
  have hfun : sc = sc' := funext h
  rw [hfun]

/-- Witness: two syntactically different but pointwise-equal scorers
give the same result. -/
theorem selection_deterministic_witness :
    incremental_selection ({0} : Finset ℕ) (fun _ => (1 : ℤ)) 0 1 false =
      incremental_selection ({0} : Finset ℕ) (fun _ => (2 : ℤ) - 1) 0 1 false :=
  selection_deterministic {0} (fun _ => (1 : ℤ)) (fun _ => (2 : ℤ) - 1) 0 1 false
    (fun _ => show (1 : ℤ) = 2 - 1 by decide)

end FeatureSelection
